import Mathlib

/-!
Verification of the parallel divisible-count/min reduction program
(`src/main.cpp`).

The program computes, over a `vector<int>` dataset, the number of elements
divisible by `DIVISOR` and the minimum such element, in three variants:

* `findDivisibleWithoutParallel` — sequential scan of the whole vector;
* `findDivisibleWithMutex`       — per-shard local reduction, merged into the
  shared `(count, minElement)` under a mutex;
* `findDivisibleWithAtomic`      — per-shard local reduction, merged with an
  atomic `fetch_add` and a CAS retry loop for the minimum.

Embedding choices:

* C++ `int` values are modelled as `Int`; `INT_MAX` is the explicit constant
  `2147483647`.  `v % DIVISOR == 0` agrees with Lean's `v % d = 0` for every
  nonzero divisor (both characterise divisibility).
* `vector<int>` is a `List Int`; `data[i]` is the `Option`-valued lookup
  `data[i]?`, so C++ out-of-bounds undefined behaviour surfaces as `none`.
* The C++ output parameters `int& count, int& minElement` (and the two
  `atomic<int>` references) become explicit arguments `c0 m0` holding the
  values left there by the caller, and the result is returned as a pair.
  The sequential and mutex variants overwrite them (`count = 0;
  minElement = INT_MAX;` at entry), so their results ignore `c0 m0`; the
  atomic variant performs no such reset and merges into `c0 m0`.
* Concurrency is linearised: each worker's merge step is a single atomic
  event (it holds the mutex, resp. is a `fetch_add` plus the CAS loop), so
  every execution is some permutation of the per-shard merges.  The
  definitions below merge in shard order; `merge_order_independent` proves
  that every permutation of the merge order yields the same aggregate, so
  the deterministic fold captures all interleavings.
* Shard bounds in both parallel variants are computed from the global
  constant `DATA_SIZE`, exactly as in the source (`const int chunkSize =
  DATA_SIZE / NUM_THREADS`), not from the length of the `data` argument.
-/

namespace ParallelLab

/-- `const int DATA_SIZE = 1000000000;` (src/main.cpp line 12). -/
def DATA_SIZE : Nat := 1000000000

/-- `const int NUM_THREADS = 1;` (src/main.cpp line 13). -/
def NUM_THREADS : Nat := 1

/-- `const int DIVISOR = 19;` (src/main.cpp line 14). -/
def DIVISOR : Int := 19

/-- `INT_MAX` for 32-bit `int`: the sentinel used for "no match found". -/
def INT_MAX : Int := 2147483647

/-- One iteration of the scan loop body (src/main.cpp lines 36-39 / 54-57 /
85-88): on accumulator `(count, minElement)` and element `v`, if
`v % d == 0` then increment the count and lower the minimum.  The divisor is
a configuration constant of the program (`DIVISOR`); it is a parameter here
so that statements can quantify over it. -/
def step (d : Int) (acc : Int × Int) (v : Int) : Int × Int :=
  if v % d = 0 then (acc.1 + 1, min acc.2 v) else acc

/-- `findDivisibleWithoutParallel` (src/main.cpp lines 32-41): resets the
output parameters to `(0, INT_MAX)` and scans the whole vector with the
range-`for` loop.  `c0 m0` are the values the caller left in `count` and
`minElement`; they are overwritten and hence unused. -/
def findDivisibleWithoutParallel (d : Int) (data : List Int) (c0 m0 : Int) :
    Int × Int :=
  data.foldl (step d) (0, INT_MAX)

/-- The worker loop `for (int i = start; i < end; ++i) ...` of the parallel
variants (src/main.cpp lines 53-58 and 84-89), with `fuel` remaining
iterations starting at index `i`.  An out-of-bounds access `data[i]` is C++
undefined behaviour and yields `none`. -/
def taskLoopAux (data : List Int) (d : Int) :
    Nat → Nat → Int × Int → Option (Int × Int)
  | 0, _, acc => some acc
  | fuel + 1, i, acc =>
    match data[i]? with
    | none => none
    | some v => taskLoopAux data d fuel (i + 1) (step d acc v)

/-- The whole worker-local reduction over `[start, stop)` (the lambda `task`
in src/main.cpp lines 50-58 / 80-89, before its merge step): local state
starts at `localCount = 0`, `localMin = INT_MAX`. -/
def taskRun (data : List Int) (d : Int) (start stop : Nat) :
    Option (Int × Int) :=
  taskLoopAux data d (stop - start) start (0, INT_MAX)

/-- `int start = i * chunkSize;` with `chunkSize = N / T`
(src/main.cpp lines 64-66 and 98-100, with `N = DATA_SIZE`,
`T = NUM_THREADS`). -/
def shardStart (N T i : Nat) : Nat := i * (N / T)

/-- `int end = (i == NUM_THREADS - 1) ? DATA_SIZE : start + chunkSize;`
(src/main.cpp lines 67 and 101). -/
def shardEnd (N T i : Nat) : Nat :=
  if i = T - 1 then N else i * (N / T) + N / T

/-- Collects a list of `Option` results, failing if any worker failed
(i.e. if any worker hit undefined behaviour). -/
def sequenceOptions {α : Type} : List (Option α) → Option (List α)
  | [] => some []
  | none :: _ => none
  | some a :: rest =>
    match sequenceOptions rest with
    | none => none
    | some l => some (a :: l)

/-- The list of per-shard local results produced by the `T` workers spawned
in src/main.cpp lines 64-69 / 98-103, each running `taskRun` on its shard of
`[0, N)`. -/
def localResults (d : Int) (data : List Int) (N T : Nat) :
    Option (List (Int × Int)) :=
  sequenceOptions
    ((List.range T).map fun i => taskRun data d (shardStart N T i) (shardEnd N T i))

/-- The merge step of the mutex variant, performed under the lock
(src/main.cpp lines 59-61): `count += localCount;
minElement = min(minElement, localMin);`. -/
def mergeLocal (acc loc : Int × Int) : Int × Int :=
  (acc.1 + loc.1, min acc.2 loc.2)

/-- `findDivisibleWithMutex` (src/main.cpp lines 44-74): resets the shared
state to `(0, INT_MAX)` (lines 46-47), runs one worker per shard and merges
each local result under the mutex.  `c0 m0` are the caller's values of
`count`/`minElement`, overwritten at entry.  The shard bounds use
`DATA_SIZE`, not `data.length`; a shard index outside `data` is undefined
behaviour, modelled as `none`. -/
def findDivisibleWithMutex (d : Int) (data : List Int) (c0 m0 : Int) :
    Option (Int × Int) :=
  match localResults d data DATA_SIZE NUM_THREADS with
  | none => none
  | some ls => some (ls.foldl mergeLocal (0, INT_MAX))

/-- Effect of the CAS retry loop (src/main.cpp lines 92-95) on the shared
minimum, linearised: load `currentMin`; while `localMin < currentMin` retry
the compare-exchange.  Its net effect is to install `localMin` exactly when
it is below the shared value. -/
def casMergeMin (shared localMin : Int) : Int :=
  if localMin < shared then localMin else shared

/-- The merge step of the atomic variant (src/main.cpp lines 90-95):
`count.fetch_add(localCount)` followed by the CAS loop on `minElement`. -/
def mergeAtomic (acc loc : Int × Int) : Int × Int :=
  (acc.1 + loc.1, casMergeMin acc.2 loc.2)

/-- `findDivisibleWithAtomic` (src/main.cpp lines 77-108).  Unlike the other
two variants it performs NO initialisation of the shared state: it merges
into whatever values `c0 m0` the caller's atomics currently hold.  (The
driver `main` initialises them to `0` and `INT_MAX` at lines 113-115.) -/
def findDivisibleWithAtomic (d : Int) (data : List Int) (c0 m0 : Int) :
    Option (Int × Int) :=
  match localResults d data DATA_SIZE NUM_THREADS with
  | none => none
  | some ls => some (ls.foldl mergeAtomic (c0, m0))

/-- A dataset of the size the driver actually generates
(`generateData(DATA_SIZE)`, src/main.cpp line 111), with all elements `0`. -/
def bigData : List Int := List.replicate DATA_SIZE 0

/-! ### Characterisation of the scan loop -/

/-- When all `fuel` accesses are in bounds, the worker loop is the fold of
`step d` over the corresponding slice of the dataset. -/
theorem taskLoopAux_eq_foldl (data : List Int) (d : Int) :
    ∀ (fuel i : Nat) (acc : Int × Int), i + fuel ≤ data.length →
      taskLoopAux data d fuel i acc =
        some (((data.drop i).take fuel).foldl (step d) acc) := by
  intro fuel
  induction fuel with
  | zero => intro i acc _; simp [taskLoopAux]
  | succ n ih =>
    intro i acc h
    have hi : i < data.length := by omega
    have hdrop : data.drop i = data[i] :: data.drop (i + 1) :=
      List.drop_eq_getElem_cons hi
    rw [taskLoopAux, List.getElem?_eq_getElem hi, hdrop, List.take_succ_cons,
      List.foldl_cons]
    exact ih (i + 1) (step d acc data[i]) (by omega)

/-- If the worker loop completes (does not hit out-of-bounds undefined
behaviour), every index it visited is within the dataset. -/
theorem taskLoopAux_ne_none_bounds (data : List Int) (d : Int) :
    ∀ (fuel i : Nat) (acc : Int × Int), taskLoopAux data d fuel i acc ≠ none →
      ∀ k, k < fuel → i + k < data.length := by
  intro fuel
  induction fuel with
  | zero => intro i acc _ k hk; omega
  | succ n ih =>
    intro i acc h k hk
    rw [taskLoopAux] at h
    match hv : data[i]? with
    | none => rw [hv] at h; exact absurd rfl h
    | some v =>
      rw [hv] at h
      have hi : i < data.length := by
        have := List.getElem?_eq_some_iff.mp hv
        exact this.1
      rcases Nat.eq_zero_or_pos k with hk0 | hkpos
      · omega
      · have := ih (i + 1) (step d acc v) h (k - 1) (by omega)
        omega

/-- The count component of the worker loop moves up by at most one per
iteration: a completed loop's count lies between the incoming count and the
incoming count plus the number of iterations. -/
theorem taskLoopAux_count_bounds (data : List Int) (d : Int) :
    ∀ (fuel i : Nat) (acc : Int × Int) (c m : Int),
      taskLoopAux data d fuel i acc = some (c, m) →
      acc.1 ≤ c ∧ c ≤ acc.1 + (fuel : Int) := by
  intro fuel
  induction fuel with
  | zero =>
    intro i acc c m h
    rw [taskLoopAux] at h
    injection h with h
    rw [h]
    simp
  | succ n ih =>
    intro i acc c m h
    rw [taskLoopAux] at h
    match hv : data[i]? with
    | none => rw [hv] at h; exact absurd h (by simp)
    | some v =>
      rw [hv] at h
      have hrec := ih (i + 1) (step d acc v) c m h
      have hstep : acc.1 ≤ (step d acc v).1 ∧ (step d acc v).1 ≤ acc.1 + 1 := by
        unfold step
        split <;> simp
      push_cast at hrec ⊢
      omega

/-- Folding `min` only lowers the accumulator. -/
theorem foldl_min_le (l : List Int) : ∀ a : Int, l.foldl min a ≤ a := by
  induction l with
  | nil => intro a; exact le_refl a
  | cons v t ih =>
    intro a
    calc t.foldl min (min a v) ≤ min a v := ih (min a v)
      _ ≤ a := min_le_left a v

/-- The fold of `step d` counts the matching elements and takes their
minimum: its first component adds the number of elements divisible by `d`,
its second folds `min` over those elements. -/
theorem foldl_step_spec (d : Int) :
    ∀ (l : List Int) (acc : Int × Int),
      l.foldl (step d) acc =
        (acc.1 + ((l.filter fun v => v % d = 0).length : Int),
         (l.filter fun v => v % d = 0).foldl min acc.2) := by
  intro l
  induction l with
  | nil => intro acc; simp
  | cons v t ih =>
    intro acc
    rw [List.foldl_cons]
    by_cases hv : v % d = 0
    · have hstep : step d acc v = (acc.1 + 1, min acc.2 v) := by
        simp [step, hv]
      have hfil : (v :: t).filter (fun w => w % d = 0) =
          v :: t.filter (fun w => w % d = 0) := by
        simp only [List.filter_cons, hv]
        simp
      rw [hstep, ih, hfil, List.length_cons, List.foldl_cons]
      refine Prod.ext ?_ rfl
      push_cast
      ring
    · have hstep : step d acc v = acc := by simp [step, hv]
      rw [hstep, ih]
      simp only [List.filter_cons]
      simp [hv]

/-- A worker's whole local reduction over an in-bounds range is the fold of
`step d` over the corresponding slice. -/
theorem taskRun_eq_foldl (data : List Int) (d : Int) (start stop : Nat)
    (h : stop ≤ data.length) :
    taskRun data d start stop =
      some (((data.drop start).take (stop - start)).foldl (step d)
        (0, INT_MAX)) := by
  rcases le_or_lt stop start with hle | hlt
  · have hfuel : stop - start = 0 := by omega
    rw [taskRun, hfuel]
    simp [taskLoopAux]
  · exact taskLoopAux_eq_foldl data d (stop - start) start (0, INT_MAX)
      (by omega)

/-- The index list `[s, s+1, ..., s+fuel-1)` read through the dataset gives
exactly the slice `drop s |> take fuel`, provided it stays in bounds. -/
theorem range'_map_getD (data : List Int) :
    ∀ (fuel s : Nat), s + fuel ≤ data.length →
      (List.range' s fuel).map (fun i => data.getD i 0) =
        (data.drop s).take fuel := by
  intro fuel
  induction fuel with
  | zero => intro s _; simp
  | succ n ih =>
    intro s h
    have hs : s < data.length := by omega
    have hdrop : data.drop s = data[s] :: data.drop (s + 1) :=
      List.drop_eq_getElem_cons hs
    rw [List.range'_succ, List.map_cons, hdrop, List.take_succ_cons,
      ih (s + 1) (by omega)]
    congr 1
    simp [List.getD, hs]

/-! ### Characterisation of the merge folds -/

/-- Folding the mutex merge step over a list of local results adds up the
local counts and folds `min` over the local minima. -/
theorem foldl_mergeLocal_spec :
    ∀ (l : List (Int × Int)) (a : Int × Int),
      l.foldl mergeLocal a =
        (a.1 + (l.map Prod.fst).sum, (l.map Prod.snd).foldl min a.2) := by
  intro l
  induction l with
  | nil => intro a; simp
  | cons x t ih =>
    intro a
    rw [List.foldl_cons, ih]
    simp only [mergeLocal, List.map_cons, List.sum_cons, List.foldl_cons]
    refine Prod.ext ?_ rfl
    push_cast
    ring

/-- The CAS retry loop on the shared minimum computes exactly `min`. -/
theorem casMergeMin_eq_min (a b : Int) : casMergeMin a b = min a b := by
  rcases lt_or_le b a with h | h
  · rw [casMergeMin, if_pos h, min_eq_right h.le]
  · rw [casMergeMin, if_neg (not_lt.mpr h), min_eq_left h]

/-- The atomic merge step (fetch-add plus CAS loop) coincides with the
mutex merge step. -/
theorem mergeAtomic_eq_mergeLocal (a x : Int × Int) :
    mergeAtomic a x = mergeLocal a x := by
  rw [mergeAtomic, mergeLocal, casMergeMin_eq_min]

/-- Hence the two merge folds agree on every list of local results. -/
theorem foldl_mergeAtomic_eq (l : List (Int × Int)) (a : Int × Int) :
    l.foldl mergeAtomic a = l.foldl mergeLocal a := by
  induction l generalizing a with
  | nil => rfl
  | cons x t ih => rw [List.foldl_cons, List.foldl_cons,
      mergeAtomic_eq_mergeLocal, ih]

/-! ### The parallel variants at the program's configuration -/

/-- With `NUM_THREADS = 1` the shard table is the single full range
`[0, DATA_SIZE)`, so the worker results are that one worker's result. -/
theorem localResults_config (d : Int) (data : List Int) :
    localResults d data DATA_SIZE NUM_THREADS =
      match taskRun data d 0 DATA_SIZE with
      | none => none
      | some p => some [p] := by
  have h0 : shardStart DATA_SIZE 1 0 = 0 := by
    simp [shardStart]
  have h1 : shardEnd DATA_SIZE 1 0 = DATA_SIZE := by
    simp [shardEnd]
  have hr : List.range 1 = [0] := rfl
  rw [localResults, NUM_THREADS, hr, List.map_singleton, h0, h1]
  match htr : taskRun data d 0 DATA_SIZE with
  | none => rfl
  | some p => rfl

/-- On a dataset of the driver's length, the single worker's local reduction
is the sequential scan of the whole dataset. -/
theorem taskRun_full (d : Int) (data : List Int)
    (h : data.length = DATA_SIZE) :
    taskRun data d 0 DATA_SIZE =
      some (data.foldl (step d) (0, INT_MAX)) := by
  rw [taskRun_eq_foldl data d 0 DATA_SIZE (le_of_eq h.symm)]
  rw [List.drop_zero, Nat.sub_zero, ← h, List.take_length]

/-- The sequential result's minimum never exceeds the sentinel. -/
theorem seq_snd_le (d : Int) (data : List Int) (c0 m0 : Int) :
    (findDivisibleWithoutParallel d data c0 m0).2 ≤ INT_MAX := by
  rw [findDivisibleWithoutParallel, foldl_step_spec]
  exact foldl_min_le _ INT_MAX

/-- On a dataset of the driver's length, the mutex variant returns exactly
the sequential result (for any caller state on either side). -/
theorem mutex_eq_seq (d : Int) (data : List Int)
    (h : data.length = DATA_SIZE) (c0 m0 c0' m0' : Int) :
    findDivisibleWithMutex d data c0 m0 =
      some (findDivisibleWithoutParallel d data c0' m0') := by
  rw [findDivisibleWithMutex, localResults_config, taskRun_full d data h]
  have hmin : min INT_MAX (data.foldl (step d) (0, INT_MAX)).2 =
      (data.foldl (step d) (0, INT_MAX)).2 :=
    min_eq_right (seq_snd_le d data c0' m0')
  simp only [List.foldl_cons, List.foldl_nil, mergeLocal]
  rw [findDivisibleWithoutParallel]
  rw [zero_add, hmin]

/-- On a dataset of the driver's length, the atomic variant merges the
sequential result into the caller-supplied shared state: it adds the count
to `c0` and takes the minimum with `m0`. -/
theorem atomic_char (d : Int) (data : List Int)
    (h : data.length = DATA_SIZE) (c0 m0 : Int) :
    findDivisibleWithAtomic d data c0 m0 =
      some (c0 + (findDivisibleWithoutParallel d data 0 0).1,
        min m0 (findDivisibleWithoutParallel d data 0 0).2) := by
  rw [findDivisibleWithAtomic, localResults_config, taskRun_full d data h]
  simp only [List.foldl_cons, List.foldl_nil, mergeAtomic_eq_mergeLocal,
    mergeLocal]
  rw [findDivisibleWithoutParallel]

/-! ### The driver-sized dataset `bigData` -/

/-- Scanning a nonempty all-zero dataset counts every element (zero is
divisible by every divisor) and drives the minimum to `0`. -/
theorem foldl_step_replicate (d : Int) :
    ∀ (n : Nat) (acc : Int × Int),
      (List.replicate (n + 1) (0 : Int)).foldl (step d) acc =
        (acc.1 + ((n : Int) + 1), min acc.2 0) := by
  intro n
  induction n with
  | zero =>
    intro acc
    have hstep : step d acc 0 = (acc.1 + 1, min acc.2 0) := by
      simp [step, Int.zero_emod]
    simp only [List.replicate, List.foldl_cons, List.foldl_nil, hstep]
    refine Prod.ext ?_ rfl
    push_cast
    ring
  | succ m ih =>
    intro acc
    have hstep : step d acc 0 = (acc.1 + 1, min acc.2 0) := by
      simp [step, Int.zero_emod]
    rw [List.replicate_succ, List.foldl_cons, hstep, ih]
    refine Prod.ext ?_ ?_
    · push_cast; ring
    · rw [min_assoc, min_self]

theorem bigData_length : bigData.length = DATA_SIZE := by
  simp [bigData]

/-- The sequential scan of `bigData`: count `DATA_SIZE`, minimum `0`. -/
theorem seq_bigData (d c0 m0 : Int) :
    findDivisibleWithoutParallel d bigData c0 m0 = ((DATA_SIZE : Int), 0) := by
  have hrep : bigData = List.replicate (999999999 + 1) (0 : Int) := rfl
  rw [findDivisibleWithoutParallel, hrep, foldl_step_replicate]
  refine Prod.ext ?_ ?_
  · norm_num [DATA_SIZE]
  · simp [INT_MAX]

/-- The mutex variant on `bigData`. -/
theorem mutex_bigData (d c0 m0 : Int) :
    findDivisibleWithMutex d bigData c0 m0 = some ((DATA_SIZE : Int), 0) := by
  rw [mutex_eq_seq d bigData bigData_length c0 m0 0 0, seq_bigData]

/-- The atomic variant on `bigData`, for an arbitrary caller state: it adds
`DATA_SIZE` to the caller's counter and lowers the caller's minimum to `0`. -/
theorem atomic_bigData (d c0 m0 : Int) :
    findDivisibleWithAtomic d bigData c0 m0 =
      some (c0 + (DATA_SIZE : Int), min m0 0) := by
  rw [atomic_char d bigData bigData_length c0 m0, seq_bigData]

/-! ### The shard partitioner -/

/-- Every shard's upper bound stays within `[0, N)`. -/
theorem shardEnd_le (N T i : Nat) (hi : i < T) : shardEnd N T i ≤ N := by
  rw [shardEnd]
  split
  · exact le_refl N
  · rename_i hne
    have h1 : i + 1 ≤ T := hi
    calc i * (N / T) + N / T = (i + 1) * (N / T) := (Nat.succ_mul _ _).symm
      _ ≤ T * (N / T) := Nat.mul_le_mul_right _ h1
      _ = N / T * T := Nat.mul_comm _ _
      _ ≤ N := Nat.div_mul_le_self N T

/-- Every index of `[0, N)` lies in some shard. -/
theorem shard_cover (N T : Nat) (hT : 1 ≤ T) (j : Nat) (hj : j < N) :
    ∃ i, i < T ∧ shardStart N T i ≤ j ∧ j < shardEnd N T i := by
  by_cases hc : N / T = 0
  · refine ⟨T - 1, by omega, ?_, ?_⟩
    · rw [shardStart, hc, Nat.mul_zero]
      exact Nat.zero_le j
    · rw [shardEnd, if_pos rfl]
      exact hj
  · have hcpos : 0 < N / T := Nat.pos_of_ne_zero hc
    by_cases hq : j / (N / T) < T - 1
    · refine ⟨j / (N / T), Nat.lt_of_lt_of_le hq (Nat.sub_le T 1), ?_, ?_⟩
      · rw [shardStart]
        exact Nat.div_mul_le_self j (N / T)
      · rw [shardEnd, if_neg (Nat.ne_of_lt hq)]
        have hlt : j % (N / T) < N / T := Nat.mod_lt j hcpos
        calc j = N / T * (j / (N / T)) + j % (N / T) :=
            (Nat.div_add_mod j (N / T)).symm
          _ < N / T * (j / (N / T)) + N / T :=
            Nat.add_lt_add_left hlt _
          _ = j / (N / T) * (N / T) + N / T := by rw [Nat.mul_comm]
    · refine ⟨T - 1, by omega, ?_, ?_⟩
      · rw [shardStart]
        calc (T - 1) * (N / T) ≤ j / (N / T) * (N / T) :=
            Nat.mul_le_mul_right _ (Nat.le_of_not_lt hq)
          _ ≤ j := Nat.div_mul_le_self j (N / T)
      · rw [shardEnd, if_pos rfl]
        exact hj

/-- No index lies in two shards with distinct indices. -/
theorem shard_disjoint_aux (N T i1 i2 j : Nat) (h12 : i1 < i2) (h2 : i2 < T)
    (hj1 : j < shardEnd N T i1) (hj2 : shardStart N T i2 ≤ j) : False := by
  have hne : i1 ≠ T - 1 := by omega
  rw [shardEnd, if_neg hne] at hj1
  rw [shardStart] at hj2
  have hle : i1 * (N / T) + N / T ≤ i2 * (N / T) :=
    calc i1 * (N / T) + N / T = (i1 + 1) * (N / T) := (Nat.succ_mul _ _).symm
      _ ≤ i2 * (N / T) := Nat.mul_le_mul_right _ (by omega)
  exact absurd (lt_of_lt_of_le (lt_of_lt_of_le hj1 hle) hj2) (lt_irrefl j)

/-- The mutex and atomic merge steps are right-commutative, so merge folds
are invariant under any reordering of the workers. -/
theorem mergeLocal_right_comm (b a1 a2 : Int × Int) :
    mergeLocal (mergeLocal b a1) a2 = mergeLocal (mergeLocal b a2) a1 := by
  simp only [mergeLocal]
  refine Prod.ext ?_ ?_
  · ring
  · exact min_right_comm _ _ _

/-! ### Claim theorems -/

/-- C1 (counterexample): the cross-implementation equivalence does NOT hold
for every dataset.  On the one-element dataset `[0]` the sequential scan
returns `(1, 0)`, but the mutex variant shards `[0, DATA_SIZE)` regardless
of the dataset's length, reads `data[1]` out of bounds, and has no defined
result. -/
theorem mutex_disagrees_with_seq_on_short_dataset :
    findDivisibleWithMutex 19 [(0 : Int)] 0 0 ≠
      some (findDivisibleWithoutParallel 19 [(0 : Int)] 0 0) := by
  decide

/-- C1 (amended): for every dataset of the driver's length `DATA_SIZE` and
every divisor, the sequential, mutex, and atomic (started from the driver's
initial shared state `(0, INT_MAX)`) reductions return identical
`(count, min)` pairs, regardless of the caller state passed to the
overwriting variants. -/
theorem three_variants_agree_on_driver_length_data (d : Int)
    (data : List Int) (h : data.length = DATA_SIZE) (c0 m0 c1 m1 : Int) :
    findDivisibleWithMutex d data c0 m0 =
      some (findDivisibleWithoutParallel d data c1 m1) ∧
    findDivisibleWithAtomic d data 0 INT_MAX =
      some (findDivisibleWithoutParallel d data c1 m1) := by
  constructor
  · exact mutex_eq_seq d data h c0 m0 c1 m1
  · rw [atomic_char d data h 0 INT_MAX, zero_add,
      min_eq_right (seq_snd_le d data 0 0)]
    rfl

/-- C1 (witness): the amended equivalence at the concrete driver-sized
dataset `bigData` and divisor 19. -/
theorem three_variants_agree_on_driver_length_data_witness :
    bigData.length = DATA_SIZE ∧
    (findDivisibleWithMutex 19 bigData 0 0 =
        some (findDivisibleWithoutParallel 19 bigData 0 0) ∧
      findDivisibleWithAtomic 19 bigData 0 INT_MAX =
        some (findDivisibleWithoutParallel 19 bigData 0 0)) :=
  ⟨bigData_length,
   three_variants_agree_on_driver_length_data 19 bigData bigData_length
     0 0 0 0⟩

/-- C2: for every dataset length `N ≥ 0` and every shard count `T ≥ 1`, the
`T` shard ranges `[shardStart N T i, shardEnd N T i)` are pairwise disjoint
and their union is exactly `[0, N)`. -/
theorem shard_partition_covers_and_disjoint (N T : Nat) (hT : 1 ≤ T) :
    (∀ j, j < N ↔
      ∃ i, i < T ∧ shardStart N T i ≤ j ∧ j < shardEnd N T i) ∧
    (∀ i1 i2 j, i1 < T → i2 < T → shardStart N T i1 ≤ j →
      j < shardEnd N T i1 → shardStart N T i2 ≤ j → j < shardEnd N T i2 →
      i1 = i2) := by
  constructor
  · intro j
    constructor
    · exact shard_cover N T hT j
    · rintro ⟨i, hi, _, hj2⟩
      exact lt_of_lt_of_le hj2 (shardEnd_le N T i hi)
  · intro i1 i2 j hi1 hi2 hs1 he1 hs2 he2
    rcases Nat.lt_trichotomy i1 i2 with hlt | heq | hgt
    · exact (shard_disjoint_aux N T i1 i2 j hlt hi2 he1 hs2).elim
    · exact heq
    · exact (shard_disjoint_aux N T i2 i1 j hgt hi1 he2 hs1).elim

/-- C2 (witness): the partition property at `N = 5`, `T = 2` (shards
`[0, 2)` and `[2, 5)`). -/
theorem shard_partition_covers_and_disjoint_witness :
    1 ≤ 2 ∧
    ((∀ j, j < 5 ↔
        ∃ i, i < 2 ∧ shardStart 5 2 i ≤ j ∧ j < shardEnd 5 2 i) ∧
     (∀ i1 i2 j, i1 < 2 → i2 < 2 → shardStart 5 2 i1 ≤ j →
       j < shardEnd 5 2 i1 → shardStart 5 2 i2 ≤ j → j < shardEnd 5 2 i2 →
       i1 = i2)) :=
  ⟨by decide, shard_partition_covers_and_disjoint 5 2 (by decide)⟩

/-- C3: over any in-bounds half-open range `[start, stop)` the local
reduction returns the number of indices whose element is divisible by `d`
as its count, and the fold of `min` over those elements (starting from the
sentinel `INT_MAX`) as its minimum — in particular the sentinel itself when
no index matches. -/
theorem taskRun_counts_and_minimizes_matches (data : List Int) (d : Int)
    (start stop : Nat) (h : stop ≤ data.length) :
    taskRun data d start stop =
      some
        (((((List.range' start (stop - start)).filter
              fun i => data.getD i 0 % d = 0)).length : Int),
         ((((List.range' start (stop - start)).filter
              fun i => data.getD i 0 % d = 0)).map
            fun i => data.getD i 0).foldl min INT_MAX) := by
  rcases le_or_lt stop start with hle | hlt
  · have hfuel : stop - start = 0 := by omega
    rw [taskRun, hfuel]
    simp [taskLoopAux]
  · rw [taskRun_eq_foldl data d start stop h, foldl_step_spec]
    have hmap := range'_map_getD data (stop - start) start (by omega)
    have hfil : ((data.drop start).take (stop - start)).filter
        (fun v => decide (v % d = 0)) =
      ((List.range' start (stop - start)).filter
        (fun i => decide (data.getD i 0 % d = 0))).map
        (fun i => data.getD i 0) := by
      rw [← hmap, List.filter_map]
      rfl
    rw [hfil, List.length_map, zero_add]

/-- C3 (witness): the range `[1, 3)` of the dataset `[19, 5, 38]` with
divisor 19: one matching index (index 2, value 38). -/
theorem taskRun_counts_and_minimizes_matches_witness :
    3 ≤ [(19 : Int), 5, 38].length ∧
    taskRun [(19 : Int), 5, 38] 19 1 3 =
      some
        (((((List.range' 1 (3 - 1)).filter
              fun i => [(19 : Int), 5, 38].getD i 0 % 19 = 0)).length : Int),
         ((((List.range' 1 (3 - 1)).filter
              fun i => [(19 : Int), 5, 38].getD i 0 % 19 = 0)).map
            fun i => [(19 : Int), 5, 38].getD i 0).foldl min INT_MAX) :=
  ⟨by decide,
   taskRun_counts_and_minimizes_matches [(19 : Int), 5, 38] 19 1 3
     (by decide)⟩

/-- C4: on the empty dataset the sequential reduction does return
`(0, INT_MAX)`, but both parallel variants immediately read `data[0]` out
of bounds (their shard table covers `[0, DATA_SIZE)` irrespective of the
dataset) — undefined behaviour instead of the required sentinel result. -/
theorem empty_dataset_seq_ok_parallel_oob :
    findDivisibleWithoutParallel 19 ([] : List Int) 0 0 = (0, INT_MAX) ∧
    findDivisibleWithMutex 19 ([] : List Int) 0 0 = none ∧
    findDivisibleWithAtomic 19 ([] : List Int) 0 INT_MAX = none := by
  refine ⟨by decide, by decide, by decide⟩

/-- C5 (counterexample): the atomic variant's result DOES depend on the
values the caller left in the shared aggregate: starting the shared counter
at `1` instead of `0` changes the result on the driver-sized dataset
`bigData`. -/
theorem atomic_result_depends_on_caller_state :
    findDivisibleWithAtomic 19 bigData 1 INT_MAX ≠
      findDivisibleWithAtomic 19 bigData 0 INT_MAX := by
  rw [atomic_bigData, atomic_bigData]
  simp only [ne_eq, Option.some.injEq, Prod.mk.injEq, not_and]
  intro h1
  omega

/-- C5 (amended): `findDivisibleWithAtomic` performs no initialisation of
the shared aggregate; it merges the reduction's result into the
caller-supplied values, adding the count to `c0` and taking the minimum
with `m0`.  The driver's single call passes `(0, INT_MAX)`, so only there
does the shared state hold `(0, sentinel)` before any merge. -/
theorem atomic_merges_into_caller_state (d : Int) (data : List Int)
    (h : data.length = DATA_SIZE) (c0 m0 : Int) :
    findDivisibleWithAtomic d data c0 m0 =
      some (c0 + (findDivisibleWithoutParallel d data 0 0).1,
        min m0 (findDivisibleWithoutParallel d data 0 0).2) :=
  atomic_char d data h c0 m0

/-- C5 (witness): the amended statement at `bigData` with caller state
`(5, 7)`. -/
theorem atomic_merges_into_caller_state_witness :
    bigData.length = DATA_SIZE ∧
    findDivisibleWithAtomic 19 bigData 5 7 =
      some (5 + (findDivisibleWithoutParallel 19 bigData 0 0).1,
        min 7 (findDivisibleWithoutParallel 19 bigData 0 0).2) :=
  ⟨bigData_length,
   atomic_merges_into_caller_state 19 bigData bigData_length 5 7⟩

/-- C6: the final aggregate is independent of the order in which the
shards' local results are merged — both merge disciplines are invariant
under every permutation of the merge order — and, from the driver's initial
state `(0, INT_MAX)`, the final count is the sum of the local counts and
the final minimum is the fold of `min` over the local minima (the unchanged
sentinel when no shard matched). -/
theorem merge_order_independent (init : Int × Int)
    (l1 l2 : List (Int × Int)) (h : l1.Perm l2) :
    l1.foldl mergeLocal init = l2.foldl mergeLocal init ∧
    l1.foldl mergeAtomic init = l2.foldl mergeAtomic init ∧
    (l1.foldl mergeLocal ((0 : Int), INT_MAX)).1 =
      (l1.map Prod.fst).sum ∧
    (l1.foldl mergeLocal ((0 : Int), INT_MAX)).2 =
      (l1.map Prod.snd).foldl min INT_MAX := by
  haveI : RightCommutative mergeLocal := ⟨mergeLocal_right_comm⟩
  refine ⟨h.foldl_eq init, ?_, ?_, ?_⟩
  · rw [foldl_mergeAtomic_eq, foldl_mergeAtomic_eq]
    exact h.foldl_eq init
  · rw [foldl_mergeLocal_spec]
    simp
  · rw [foldl_mergeLocal_spec]

/-- C6 (witness): two local results merged in both orders from the state
`(2, 9)`. -/
theorem merge_order_independent_witness :
    ([((1 : Int), (5 : Int)), ((0 : Int), (3 : Int))].Perm
       [((0 : Int), (3 : Int)), ((1 : Int), (5 : Int))]) ∧
    ([((1 : Int), (5 : Int)), ((0 : Int), (3 : Int))].foldl mergeLocal
        ((2 : Int), (9 : Int)) =
      [((0 : Int), (3 : Int)), ((1 : Int), (5 : Int))].foldl mergeLocal
        ((2 : Int), (9 : Int)) ∧
     [((1 : Int), (5 : Int)), ((0 : Int), (3 : Int))].foldl mergeAtomic
        ((2 : Int), (9 : Int)) =
      [((0 : Int), (3 : Int)), ((1 : Int), (5 : Int))].foldl mergeAtomic
        ((2 : Int), (9 : Int)) ∧
     ([((1 : Int), (5 : Int)), ((0 : Int), (3 : Int))].foldl mergeLocal
        ((0 : Int), INT_MAX)).1 =
      ([((1 : Int), (5 : Int)), ((0 : Int), (3 : Int))].map Prod.fst).sum ∧
     ([((1 : Int), (5 : Int)), ((0 : Int), (3 : Int))].foldl mergeLocal
        ((0 : Int), INT_MAX)).2 =
      ([((1 : Int), (5 : Int)), ((0 : Int), (3 : Int))].map
        Prod.snd).foldl min INT_MAX) :=
  ⟨List.Perm.swap ((0 : Int), (3 : Int)) ((1 : Int), (5 : Int)) [],
   merge_order_independent ((2 : Int), (9 : Int)) _ _
     (List.Perm.swap ((0 : Int), (3 : Int)) ((1 : Int), (5 : Int)) [])⟩

/-- C7 (counterexample): re-running the atomic variant on the shared state
left by its first run does not reproduce the result: on `bigData` the first
run (from the driver's `(0, INT_MAX)`) returns count `DATA_SIZE`, and the
second run doubles it. -/
theorem atomic_rerun_not_idempotent :
    findDivisibleWithAtomic 19 bigData 0 INT_MAX =
      some ((DATA_SIZE : Int), 0) ∧
    findDivisibleWithAtomic 19 bigData (DATA_SIZE : Int) 0 =
      some (2 * (DATA_SIZE : Int), 0) ∧
    some (2 * (DATA_SIZE : Int), (0 : Int)) ≠
      some ((DATA_SIZE : Int), (0 : Int)) := by
  refine ⟨?_, ?_, by decide⟩
  · rw [atomic_bigData, zero_add,
      min_eq_right (by norm_num [INT_MAX] : (0 : Int) ≤ INT_MAX)]
  · rw [atomic_bigData, min_self, two_mul]

/-- C7 (amended): the sequential and mutex variants overwrite the shared
state at entry, so re-running either on the state its first run left
reproduces the first result exactly; the atomic variant (see the
counterexample) is not idempotent in this sense. -/
theorem seq_and_mutex_rerun_stable (d : Int) (data : List Int)
    (c0 m0 : Int) (r s : Int × Int)
    (h1 : findDivisibleWithoutParallel d data c0 m0 = r)
    (h2 : findDivisibleWithMutex d data c0 m0 = some s) :
    findDivisibleWithoutParallel d data r.1 r.2 = r ∧
    findDivisibleWithMutex d data s.1 s.2 = some s := by
  constructor
  · rw [← h1]
    rfl
  · rw [← h2]
    rfl

/-- C7 (witness): the rerun property at `bigData`, both runs starting from
the driver's state. -/
theorem seq_and_mutex_rerun_stable_witness :
    findDivisibleWithoutParallel 19 bigData 0 INT_MAX =
      ((DATA_SIZE : Int), 0) ∧
    findDivisibleWithMutex 19 bigData 0 INT_MAX =
      some ((DATA_SIZE : Int), 0) ∧
    (findDivisibleWithoutParallel 19 bigData ((DATA_SIZE : Int), 0).1
        ((DATA_SIZE : Int), 0).2 = ((DATA_SIZE : Int), 0) ∧
     findDivisibleWithMutex 19 bigData ((DATA_SIZE : Int), 0).1
        ((DATA_SIZE : Int), 0).2 = some ((DATA_SIZE : Int), 0)) :=
  ⟨seq_bigData 19 0 INT_MAX, mutex_bigData 19 0 INT_MAX,
   seq_and_mutex_rerun_stable 19 bigData 0 INT_MAX
     ((DATA_SIZE : Int), 0) ((DATA_SIZE : Int), 0)
     (seq_bigData 19 0 INT_MAX) (mutex_bigData 19 0 INT_MAX)⟩

/-- C8 (counterexample): on the spec's sample dataset
`[19, 38, 5, 57, 100, 0]` the parallel variants do NOT return `(4, 0)`:
their shard table covers `[0, DATA_SIZE)`, so on this 6-element dataset
they read out of bounds and have no defined result. -/
theorem parallel_variants_fail_on_sample_dataset :
    findDivisibleWithMutex 19 [19, 38, 5, 57, 100, 0] 0 0 = none ∧
    findDivisibleWithAtomic 19 [19, 38, 5, 57, 100, 0] 0 INT_MAX = none ∧
    (none : Option (Int × Int)) ≠ some (4, 0) := by
  refine ⟨by decide, by decide, by decide⟩

/-- C8 (amended): the sequential reduction does satisfy both sample
scenarios: count 4 and minimum 0 on `[19, 38, 5, 57, 100, 0]`, and count 0
with the sentinel minimum on `[1, 2, 3, 4, 5]`, with divisor 19 (for any
caller state, which it overwrites). -/
theorem seq_on_sample_datasets (c0 m0 c1 m1 : Int) :
    findDivisibleWithoutParallel 19 [19, 38, 5, 57, 100, 0] c0 m0 =
      (4, 0) ∧
    findDivisibleWithoutParallel 19 [1, 2, 3, 4, 5] c1 m1 =
      (0, INT_MAX) :=
  ⟨rfl, rfl⟩

/-- C9: for every dataset no longer than `DATA_SIZE`, the sequential count
is between `0` and the dataset length (hence at most `DATA_SIZE`), every
completed parallel run's count is at most `DATA_SIZE` above its starting
value, and `DATA_SIZE` fits comfortably below `2^31`, the first value a
32-bit signed `int` counter cannot hold. -/
theorem counter_bounded_no_overflow (d : Int) (data : List Int)
    (c0 m0 : Int) (h : data.length ≤ DATA_SIZE) :
    (0 ≤ (findDivisibleWithoutParallel d data c0 m0).1 ∧
     (findDivisibleWithoutParallel d data c0 m0).1 ≤ (data.length : Int) ∧
     (findDivisibleWithoutParallel d data c0 m0).1 ≤ (DATA_SIZE : Int)) ∧
    (∀ c m, findDivisibleWithMutex d data c0 m0 = some (c, m) →
      0 ≤ c ∧ c ≤ (DATA_SIZE : Int)) ∧
    (∀ c m, findDivisibleWithAtomic d data c0 m0 = some (c, m) →
      c0 ≤ c ∧ c ≤ c0 + (DATA_SIZE : Int)) ∧
    (DATA_SIZE : Int) < 2 ^ 31 := by
  have hs : (findDivisibleWithoutParallel d data c0 m0).1 =
      ((data.filter fun v => v % d = 0).length : Int) := by
    rw [findDivisibleWithoutParallel, foldl_step_spec, zero_add]
  have hlen : (data.filter fun v => v % d = 0).length ≤ data.length :=
    List.length_filter_le _ data
  refine ⟨⟨?_, ?_, ?_⟩, ?_, ?_, ?_⟩
  · rw [hs]; exact Int.natCast_nonneg _
  · rw [hs]; exact_mod_cast hlen
  · rw [hs]; exact_mod_cast le_trans hlen h
  · intro c m hcm
    rw [findDivisibleWithMutex, localResults_config] at hcm
    match htr : taskRun data d 0 DATA_SIZE with
    | none => rw [htr] at hcm; exact absurd hcm (by simp)
    | some p =>
      rw [htr] at hcm
      simp only [List.foldl_cons, List.foldl_nil, mergeLocal,
        Option.some.injEq, Prod.mk.injEq] at hcm
      have hb := taskLoopAux_count_bounds data d (DATA_SIZE - 0) 0
        ((0 : Int), INT_MAX) p.1 p.2 htr
      rw [Nat.sub_zero] at hb
      simp only at hb
      omega
  · intro c m hcm
    rw [findDivisibleWithAtomic, localResults_config] at hcm
    match htr : taskRun data d 0 DATA_SIZE with
    | none => rw [htr] at hcm; exact absurd hcm (by simp)
    | some p =>
      rw [htr] at hcm
      simp only [List.foldl_cons, List.foldl_nil,
        mergeAtomic_eq_mergeLocal, mergeLocal, Option.some.injEq,
        Prod.mk.injEq] at hcm
      have hb := taskLoopAux_count_bounds data d (DATA_SIZE - 0) 0
        ((0 : Int), INT_MAX) p.1 p.2 htr
      rw [Nat.sub_zero] at hb
      simp only at hb
      omega
  · norm_num [DATA_SIZE]

/-- C9 (witness): the bound at the one-element dataset `[0]`. -/
theorem counter_bounded_no_overflow_witness :
    [(0 : Int)].length ≤ DATA_SIZE ∧
    ((0 ≤ (findDivisibleWithoutParallel 19 [(0 : Int)] 0 0).1 ∧
      (findDivisibleWithoutParallel 19 [(0 : Int)] 0 0).1 ≤
        ([(0 : Int)].length : Int) ∧
      (findDivisibleWithoutParallel 19 [(0 : Int)] 0 0).1 ≤
        (DATA_SIZE : Int)) ∧
     (∀ c m, findDivisibleWithMutex 19 [(0 : Int)] 0 0 = some (c, m) →
       0 ≤ c ∧ c ≤ (DATA_SIZE : Int)) ∧
     (∀ c m, findDivisibleWithAtomic 19 [(0 : Int)] 0 0 = some (c, m) →
       0 ≤ c ∧ c ≤ 0 + (DATA_SIZE : Int)) ∧
     (DATA_SIZE : Int) < 2 ^ 31) :=
  ⟨by decide, counter_bounded_no_overflow 19 [(0 : Int)] 0 0 (by decide)⟩

/-- C10: every shard's range stays within `[0, DATA_SIZE)`, and a parallel
run completes without any out-of-bounds access exactly when the dataset has
at least `DATA_SIZE` elements — the shard bounds come from the constant
`DATA_SIZE`, not from the dataset's length. -/
theorem parallel_in_bounds_iff_driver_length (d : Int) (data : List Int)
    (c0 m0 : Int) :
    (∀ i, i < NUM_THREADS → shardEnd DATA_SIZE NUM_THREADS i ≤ DATA_SIZE) ∧
    (¬(findDivisibleWithMutex d data c0 m0 = none) ↔
      DATA_SIZE ≤ data.length) ∧
    (¬(findDivisibleWithAtomic d data c0 m0 = none) ↔
      DATA_SIZE ≤ data.length) := by
  have hiff : ¬(taskRun data d 0 DATA_SIZE = none) ↔
      DATA_SIZE ≤ data.length := by
    constructor
    · intro hne
      have hb := taskLoopAux_ne_none_bounds data d (DATA_SIZE - 0) 0
        ((0 : Int), INT_MAX) hne (DATA_SIZE - 1) (by norm_num [DATA_SIZE])
      have hpos : 1 ≤ DATA_SIZE := by norm_num [DATA_SIZE]
      omega
    · intro hlen
      rw [taskRun_eq_foldl data d 0 DATA_SIZE hlen]
      simp
  have hm : (findDivisibleWithMutex d data c0 m0 = none) ↔
      (taskRun data d 0 DATA_SIZE = none) := by
    rw [findDivisibleWithMutex, localResults_config]
    match taskRun data d 0 DATA_SIZE with
    | none => simp
    | some p => simp
  have ha : (findDivisibleWithAtomic d data c0 m0 = none) ↔
      (taskRun data d 0 DATA_SIZE = none) := by
    rw [findDivisibleWithAtomic, localResults_config]
    match taskRun data d 0 DATA_SIZE with
    | none => simp
    | some p => simp
  refine ⟨fun i hi => shardEnd_le DATA_SIZE NUM_THREADS i hi, ?_, ?_⟩
  · rw [hm]
    exact hiff
  · rw [ha]
    exact hiff

end ParallelLab
